import Mathlib

/-!
Verification development for the htb-network-discovery repository.

The Python sources are shallowly embedded as Lean definitions:

* `src/utils/validators.py` (`normalize_mac`);
* `src/core/discovery/parsers.py` (`CiscoParser._parse_vlan_list`,
  `CiscoParser.parse_vlans`);
* `src/core/discovery/engine.py` (`DiscoveryEngine`: the frontier queue,
  the `discovered_devices` set, depth handling and neighbour filtering).

Python strings are embedded as `List Char` (wrapped to `String` at entry
points), Python `int` as `Int`/`Nat` (values here are small, overflow does
not arise), dictionaries as structures, and fallible operations as
`Option`.  Character-class checks (`\d`, `\s`, `str.strip`) follow the
ASCII reading of the corresponding Python classes.
-/

namespace NetDiscovery

/-! ## Python string primitives -/

/-- ASCII whitespace, the characters matched by `\s` / stripped by
`str.strip` on the inputs at hand. -/
def isSpacePy (c : Char) : Bool :=
  c = ' ' || c = '\t' || c = '\n' || c = '\r' || c = '\x0b' || c = '\x0c'

/-- Python `str.strip()`: drop whitespace from both ends. -/
def pyStrip (cs : List Char) : List Char :=
  ((cs.dropWhile isSpacePy).reverse.dropWhile isSpacePy).reverse

/-- Python `str.split(sep)` for a single-character separator: always returns
a non-empty list, keeps empty fragments. -/
def splitOnChar (sep : Char) : List Char → List (List Char)
  | [] => [[]]
  | c :: cs =>
    if c = sep then [] :: splitOnChar sep cs
    else
      match splitOnChar sep cs with
      | [] => [[c]]
      | l :: ls => (c :: l) :: ls

/-- Value of a run of decimal digits. -/
def digitsVal (ds : List Char) : Nat :=
  ds.foldl (fun a c => 10 * a + (c.toNat - 48)) 0

/-- Digit-and-underscore body accepted by Python `int`: `d+(_d+)*`.
The boolean argument records whether the previous character was a digit
(so that an underscore is currently allowed). -/
def duAux : Bool → List Char → Bool
  | prev, [] => prev
  | prev, c :: rest =>
    if c.isDigit then duAux true rest
    else if c = '_' then prev && duAux false rest
    else false

/-- Python `int(str)`: strip whitespace, optional sign, then a digit body
possibly containing single underscores between digits. -/
def pyInt (cs : List Char) : Option Int :=
  match pyStrip cs with
  | '+' :: r => if duAux false r then some (Int.ofNat (digitsVal (r.filter (fun c => c ≠ '_')))) else none
  | '-' :: r => if duAux false r then some (-(Int.ofNat (digitsVal (r.filter (fun c => c ≠ '_'))))) else none
  | r => if duAux false r then some (Int.ofNat (digitsVal (r.filter (fun c => c ≠ '_')))) else none

/-- Python `list(range(a, b + 1))` over `Int`. -/
def pyRange (a b : Int) : List Int :=
  (List.range (b + 1 - a).toNat).map (fun i => a + Int.ofNat i)

/-! ## `src/utils/validators.py` — `normalize_mac` -/

/-- The separator class removed by `re.sub(r"[.:\-\s]", "", ...)`. -/
def isSepChar (c : Char) : Bool :=
  c = '.' || c = ':' || c = '-' || isSpacePy c

/-- `mac_address.lower()` followed by separator removal
(`re.sub(r"[.:\-\s]", "", mac_address.lower())`). -/
def stripMac (cs : List Char) : List Char :=
  (cs.map Char.toLower).filter (fun c => !(isSepChar c))

/-- `c in "0123456789abcdef"`. -/
def isHexLower (c : Char) : Bool :=
  "0123456789abcdef".data.contains c

/-- `":".join(mac[i : i + 2] for i in range(0, 12, 2))`: insert a colon
after every pair of characters (agrees with the source's fixed-12 join on
all even-length inputs, in particular on length 12). -/
def fmtMac : List Char → List Char
  | a :: b :: c :: rest => a :: b :: ':' :: fmtMac (c :: rest)
  | l => l

/-- `normalize_mac` from `src/utils/validators.py`.  `none` stands for the
`ValueError` raises (wrong length, or a non-hex character). -/
def normalize_mac (s : String) : Option String :=
  let m := stripMac s.data
  if m.length = 12 then
    if m.all isHexLower then some (String.mk (fmtMac m)) else none
  else none

/-- Shape of `^[0-9a-f]{2}(:[0-9a-f]{2}){5}$` minus the overall length:
pairs of lowercase hex digits separated by colons. -/
def macShape : List Char → Bool
  | [a, b] => isHexLower a && isHexLower b
  | a :: b :: ':' :: rest => isHexLower a && isHexLower b && macShape rest
  | _ => false

/-! ## `src/core/discovery/parsers.py` — `CiscoParser._parse_vlan_list` -/

/-- Body of the `for part in parts` loop of `_parse_vlan_list`: the values
contributed by one comma-separated fragment.  A fragment containing `-` is
unpacked as exactly two pieces and parsed as a range; otherwise it is
parsed as a single integer; failures (`ValueError`) contribute nothing. -/
def partVals (part : List Char) : List Int :=
  let p := pyStrip part
  if p.contains '-' then
    match splitOnChar '-' p with
    | [a, b] =>
      match pyInt a, pyInt b with
      | some s, some e => pyRange s e
      | _, _ => []
    | _ => []
  else
    match pyInt p with
    | some v => [v]
    | none => []

/-- The `vlans` list built by `_parse_vlan_list` before deduplication. -/
def fragVals (cs : List Char) : List Int :=
  (splitOnChar ',' cs).flatMap partVals

/-- Python `sorted(set(l))` for integers: deduplicate, then sort
ascending. -/
def dedupSort (l : List Int) : List Int :=
  List.insertionSort (· ≤ ·) l.dedup

/-- `CiscoParser._parse_vlan_list` from `src/core/discovery/parsers.py`. -/
def parse_vlan_list (s : String) : List Int :=
  dedupSort (fragVals s.data)

/-! ## `src/core/discovery/parsers.py` — `CiscoParser.parse_vlans`

`parse_vlans` runs `finditer` with the MULTILINE, IGNORECASE pattern
`^(\d+)\s+(\S+)\s+(active|suspended|act/lshut|sus/lshut)`.  Because the
character classes of adjacent pieces are disjoint, the regex is matched by
maximal munch with no backtracking; `^` restricts match starts to
line starts, and `finditer` resumes scanning at the end of each match. -/

/-- Case-insensitive literal match: consume `pat` (given lowercase) from
the head of the input, returning the rest. -/
def ciConsume : List Char → List Char → Option (List Char)
  | [], cs => some cs
  | _ :: _, [] => none
  | p :: ps, c :: cs => if c.toLower = p then ciConsume ps cs else none

/-- The status alternation `(active|suspended|act/lshut|sus/lshut)`,
alternatives tried left to right.  Returns the lowercased matched text
(`status.lower()` in the source) and the remaining input. -/
def matchStatus (cs : List Char) : Option (List Char × List Char) :=
  match ciConsume "active".data cs with
  | some r => some ("active".data, r)
  | none =>
    match ciConsume "suspended".data cs with
    | some r => some ("suspended".data, r)
    | none =>
      match ciConsume "act/lshut".data cs with
      | some r => some ("act/lshut".data, r)
      | none =>
        match ciConsume "sus/lshut".data cs with
        | some r => some ("sus/lshut".data, r)
        | none => none

/-- `needle` starts `hay`. -/
def startsWith : List Char → List Char → Bool
  | [], _ => true
  | _ :: _, [] => false
  | a :: as, b :: bs => (a = b) && startsWith as bs

/-- Python `needle in hay` (substring containment). -/
def hasSub (needle : List Char) : List Char → Bool
  | [] => needle.isEmpty
  | c :: rest => startsWith needle (c :: rest) || hasSub needle rest

/-- One record produced by `parse_vlans`. -/
structure VlanRec where
  vlan_id : Nat
  name : List Char
  status : String
deriving DecidableEq, Repr

/-- Try the `parse_vlans` pattern at the current position (which the
caller guarantees to be a line start).  Returns the record built by the
loop body — with the `"active" if "active" in status else "suspended"`
normalisation — and the input remaining after the match. -/
def matchVlanLine (cs : List Char) : Option (VlanRec × List Char) :=
  let ds := cs.takeWhile Char.isDigit
  let r1 := cs.dropWhile Char.isDigit
  if ds.isEmpty then none
  else
    let w1 := r1.takeWhile isSpacePy
    let r2 := r1.dropWhile isSpacePy
    if w1.isEmpty then none
    else
      let nm := r2.takeWhile (fun c => !(isSpacePy c))
      let r3 := r2.dropWhile (fun c => !(isSpacePy c))
      if nm.isEmpty then none
      else
        let w2 := r3.takeWhile isSpacePy
        let r4 := r3.dropWhile isSpacePy
        if w2.isEmpty then none
        else
          match matchStatus r4 with
          | none => none
          | some (st, r5) =>
            some ({ vlan_id := digitsVal ds
                    name := nm
                    status := if hasSub "active".data st then "active" else "suspended" }, r5)

/-- `finditer` scan: try the pattern at every line start, left to right,
resuming after each match.  The boolean records whether the current
position is a line start; the fuel bounds the number of single-character
advances (one unit per iteration suffices since every iteration consumes
at least one character). -/
def pvScanAux : Nat → List Char → Bool → List VlanRec
  | 0, _, _ => []
  | _ + 1, [], _ => []
  | fuel + 1, c :: rest, lineStart =>
    if lineStart then
      match matchVlanLine (c :: rest) with
      | some (e, r5) => e :: pvScanAux fuel r5 false
      | none => pvScanAux fuel rest (c = '\n')
    else
      pvScanAux fuel rest (c = '\n')

/-- `CiscoParser.parse_vlans` from `src/core/discovery/parsers.py`. -/
def parse_vlans (s : String) : List VlanRec :=
  pvScanAux s.data.length s.data true

/-- The input after the first newline (empty when there is none):
the suffix on which all complete later lines live. -/
def skipLine (cs : List Char) : List Char :=
  (cs.dropWhile (fun c => c ≠ '\n')).tail

/-- Leading integer of one line, when the line starts with a digit. -/
def lineLeadVal (l : List Char) : Option Nat :=
  let ds := l.takeWhile Char.isDigit
  if ds.isEmpty then none else some (digitsVal ds)

/-- The leading integers of the lines of the input — the integers a
MULTILINE `^(\d+)` can bind. -/
def lineLeadVals (cs : List Char) : List Nat :=
  (splitOnChar '\n' cs).filterMap lineLeadVal

/-! ## `src/core/discovery/engine.py` — `DiscoveryEngine`

The engine is embedded as a sequential transition system: one `step`
dequeues the head of `discovery_queue` and — exactly as the worker loop
does — applies the dequeue-time checks, marks the hostname discovered,
runs the collector, and (`_process_discovered_device`) enqueues the
selected neighbours.  Device identity throughout the engine is the
hostname (a `DeviceConfig`'s `ip`/`device_type` never influence control
flow), so queue entries are embedded as `(hostname, depth)` pairs.  The
collector (`NetworkDiscoveryCollector.collect_from_device` behind
`_discover_device`) is abstracted as an oracle `net` from hostname to
`none` (failure) or the list of neighbour records. -/

/-- One neighbour record as consumed by `_process_discovered_device`:
`remote_device` may be absent (`dict.get` returning `None`), and the
empty string is falsy in the `if not neighbor_hostname` test. -/
structure Neighbor where
  remote_device : Option String
  remote_ip : Option String
  capabilities : List String
deriving DecidableEq

/-- The capability test of `_process_discovered_device`:
`any(cap in ["Switch", "Router", "switch", "router"] for cap in capabilities)`. -/
def capFilter (caps : List String) : Bool :=
  caps.any (fun cap => ["Switch", "Router", "switch", "router"].contains cap)

/-- The per-neighbour selection of `_process_discovered_device`, in source
order: skip when the hostname is falsy or already in `discovered_devices`,
then skip when the capability test fails; otherwise the neighbour is
queued under its hostname. -/
def neighborHost? (discovered : List String) (n : Neighbor) : Option String :=
  match n.remote_device with
  | none => none
  | some h =>
    if h = "" then none
    else if discovered.contains h then none
    else if capFilter n.capabilities then some h else none

/-- All neighbours queued by one `_process_discovered_device` call, in
list order (the loop checks `discovered_devices` but never extends it, so
one device's duplicate neighbours are each queued). -/
def selectNeighbors (discovered : List String) (nbrs : List Neighbor) : List String :=
  nbrs.filterMap (neighborHost? discovered)

/-- A crawl configuration: seed hostnames, `max_depth`, and the collector
oracle. -/
structure EngineCfg where
  seeds : List String
  maxDepth : Nat
  net : String → Option (List Neighbor)

/-- Engine state.  `frontier` is `discovery_queue` (head = next `get`),
`discovered` is `discovered_devices`, `collected` records the
`device_data` insertions as (hostname, depth) pairs in order.  `enqueued`
is a history variable absent from the source: it logs every `put` ever
performed on the queue, for stating frontier invariants. -/
structure EngineState where
  frontier : List (String × Nat)
  discovered : List String
  collected : List (String × Nat)
  enqueued : List (String × Nat)

/-- Initial state of `start_discovery`: every seed device is put on the
queue at depth 0. -/
def initState (cfg : EngineCfg) : EngineState :=
  { frontier := cfg.seeds.map (fun h => (h, 0))
    discovered := []
    collected := []
    enqueued := cfg.seeds.map (fun h => (h, 0)) }

/-- One iteration of `_process_discovery_queue` on the queue head:
`none` when the queue is empty (the crawl is over).  In order: the
`hostname in self.discovered_devices` skip, the `depth >= self.max_depth`
skip, marking discovered, the collector call, and on success
`_process_discovered_device` — record the device and, when
`depth < self.max_depth - 1`, enqueue the selected neighbours at
`depth + 1`. -/
def step (cfg : EngineCfg) (st : EngineState) : Option EngineState :=
  match st.frontier with
  | [] => none
  | (h, d) :: rest =>
    if st.discovered.contains h then
      some { st with frontier := rest }
    else if cfg.maxDepth ≤ d then
      some { st with frontier := rest }
    else
      let disc := h :: st.discovered
      match cfg.net h with
      | none => some { st with frontier := rest, discovered := disc }
      | some nbrs =>
        let newItems :=
          if d < cfg.maxDepth - 1 then
            (selectNeighbors disc nbrs).map (fun nh => (nh, d + 1))
          else []
        some { frontier := rest ++ newItems
               discovered := disc
               collected := st.collected ++ [(h, d)]
               enqueued := st.enqueued ++ newItems }

/-- Run the crawl for at most `fuel` iterations (the crawl itself stops
when the queue drains). -/
def run (cfg : EngineCfg) : Nat → EngineState → EngineState
  | 0, st => st
  | fuel + 1, st =>
    match step cfg st with
    | none => st
    | some st' => run cfg fuel st'

/-! ## Lemmas about `normalize_mac` -/

lemma hex_toLower (c : Char) (h : isHexLower c = true) : c.toLower = c := by
  have hc : c ∈ ("0123456789abcdef".data) := by
    simpa [isHexLower] using h
  fin_cases hc <;> decide

lemma hex_not_sep (c : Char) (h : isHexLower c = true) : isSepChar c = false := by
  have hc : c ∈ ("0123456789abcdef".data) := by
    simpa [isHexLower] using h
  fin_cases hc <;> decide

lemma fmtMac_shape : ∀ m : List Char, m.all isHexLower = true → m ≠ [] →
    m.length % 2 = 0 → macShape (fmtMac m) = true := by
  intro m
  induction m using fmtMac.induct with
  | case1 a b c rest ih =>
    intro hall _ hlen
    simp only [List.all_cons, Bool.and_eq_true] at hall
    have hx := ih (by simp [List.all_cons, hall.2.2.1, hall.2.2.2])
      (by simp) (by simp at hlen ⊢; omega)
    simp [fmtMac, macShape, hall.1, hall.2.1, hx]
  | case2 l hne =>
    intro hall hne0 hlen
    match l, hne0, hne with
    | [a], _, _ => simp at hlen
    | [a, b], _, _ =>
      simp only [List.all_cons, Bool.and_eq_true] at hall
      simp [fmtMac, macShape, hall.1, hall.2.1]
    | a :: b :: c :: rest, _, hne => exact absurd rfl (hne a b c rest)

lemma fmtMac_length : ∀ m : List Char, m ≠ [] → m.length % 2 = 0 →
    (fmtMac m).length = 3 * m.length / 2 - 1 := by
  intro m
  induction m using fmtMac.induct with
  | case1 a b c rest ih =>
    intro _ hlen
    have hx := ih (by simp) (by simp at hlen ⊢; omega)
    simp only [fmtMac, List.length_cons] at hx ⊢
    simp only [List.length_cons] at hlen
    omega
  | case2 l hne =>
    intro hne0 hlen
    match l, hne0, hne with
    | [a], _, _ => simp at hlen
    | [a, b], _, _ => simp [fmtMac]
    | a :: b :: c :: rest, _, hne => exact absurd rfl (hne a b c rest)

lemma stripMac_fmtMac : ∀ m : List Char, m.all isHexLower = true →
    stripMac (fmtMac m) = m := by
  intro m
  induction m using fmtMac.induct with
  | case1 a b c rest ih =>
    intro hall
    simp only [List.all_cons, Bool.and_eq_true] at hall
    have hx := ih (by simp [List.all_cons, hall.2.2.1, hall.2.2.2])
    simp only [fmtMac, stripMac, List.map_cons, List.filter_cons] at hx ⊢
    simp [hex_toLower _ hall.1, hex_toLower _ hall.2.1,
      hex_not_sep _ hall.1, hex_not_sep _ hall.2.1, hx,
      (by decide : Char.toLower ':' = ':'), (by decide : isSepChar ':' = true)]
  | case2 l hne =>
    intro hall
    match l, hne with
    | [], _ => simp [fmtMac, stripMac]
    | [a], _ =>
      simp only [List.all_cons, Bool.and_eq_true] at hall
      simp [fmtMac, stripMac, hex_toLower _ hall.1, hex_not_sep _ hall.1]
    | [a, b], _ =>
      simp only [List.all_cons, Bool.and_eq_true] at hall
      simp [fmtMac, stripMac, hex_toLower _ hall.1, hex_toLower _ hall.2.1,
        hex_not_sep _ hall.1, hex_not_sep _ hall.2.1]
    | a :: b :: c :: rest, hne => exact absurd rfl (hne a b c rest)

/-- C3: `normalize_mac` returns normally exactly when the input, after
removing the separators `.`, `:`, `-` and whitespace and lowercasing,
consists of exactly 12 hexadecimal digits; every returned value matches
`^[0-9a-f]{2}(:[0-9a-f]{2}){5}$` (formalised as length 17 plus
`macShape`); and `normalize_mac` is idempotent on its own output. -/
theorem normalize_mac_spec :
    (∀ s : String, (normalize_mac s).isSome = true ↔
      ((stripMac s.data).length = 12 ∧ (stripMac s.data).all isHexLower = true))
    ∧ (∀ s r : String, normalize_mac s = some r →
      r.data.length = 17 ∧ macShape r.data = true)
    ∧ (∀ s r : String, normalize_mac s = some r → normalize_mac r = some r) := by
  have hkey : ∀ s r : String, normalize_mac s = some r →
      (stripMac s.data).length = 12 ∧ (stripMac s.data).all isHexLower = true ∧
        r = String.mk (fmtMac (stripMac s.data)) := by
    intro s r h
    by_cases h1 : (stripMac s.data).length = 12
    · by_cases h2 : (stripMac s.data).all isHexLower = true
      · refine ⟨h1, h2, ?_⟩
        simp only [normalize_mac, h1, h2, if_true] at h
        exact (Option.some_injective _ h).symm
      · simp [normalize_mac, h1, h2] at h
    · simp [normalize_mac, h1] at h
  refine ⟨?_, ?_, ?_⟩
  · intro s
    by_cases h1 : (stripMac s.data).length = 12
    · by_cases h2 : (stripMac s.data).all isHexLower = true
      · simp [normalize_mac, h1, h2]
      · simp [normalize_mac, h1, h2]
    · simp [normalize_mac, h1]
  · intro s r h
    obtain ⟨h1, h2, rfl⟩ := hkey s r h
    constructor
    · show (fmtMac (stripMac s.data)).length = 17
      rw [fmtMac_length _ (by intro hc; rw [hc] at h1; simp at h1) (by omega), h1]
    · exact fmtMac_shape _ h2 (by intro hc; rw [hc] at h1; simp at h1) (by omega)
  · intro s r h
    obtain ⟨h1, h2, rfl⟩ := hkey s r h
    have hs : stripMac (fmtMac (stripMac s.data)) = stripMac s.data :=
      stripMac_fmtMac _ h2
    simp only [normalize_mac, hs, h1, h2, if_true]

/-- Witness for C3 at concrete inputs: a mixed-case, mixed-separator MAC
is accepted, its normal form has the canonical shape, and renormalising
the output returns it unchanged. -/
theorem normalize_mac_spec_witness :
    (normalize_mac "AA.bb-cc 001122").isSome = true ∧
    ("aa:bb:cc:00:11:22".data.length = 17 ∧ macShape "aa:bb:cc:00:11:22".data = true) ∧
    normalize_mac "aa:bb:cc:00:11:22" = some "aa:bb:cc:00:11:22" :=
  ⟨(normalize_mac_spec.1 "AA.bb-cc 001122").mpr (by decide),
   normalize_mac_spec.2.1 "AA.bb-cc 001122" "aa:bb:cc:00:11:22" (by decide),
   normalize_mac_spec.2.2 "AA.bb-cc 001122" "aa:bb:cc:00:11:22" (by decide)⟩

/-! ## Lemmas about `_parse_vlan_list` -/

lemma dedupSort_sorted_le (l : List Int) : List.Sorted (· ≤ ·) (dedupSort l) :=
  List.sorted_insertionSort _ _

lemma dedupSort_nodup (l : List Int) : (dedupSort l).Nodup :=
  ((List.perm_insertionSort _ _).nodup_iff).mpr l.nodup_dedup

lemma dedupSort_sorted_lt (l : List Int) : List.Sorted (· < ·) (dedupSort l) :=
  ((dedupSort_sorted_le l).and (dedupSort_nodup l)).imp
    (fun h => lt_of_le_of_ne h.1 h.2)

lemma mem_dedupSort {l : List Int} {v : Int} : v ∈ dedupSort l ↔ v ∈ l := by
  unfold dedupSort
  rw [(List.perm_insertionSort _ _).mem_iff, List.mem_dedup]

lemma pyRange_1_4094 : pyRange 1 4094 = (List.range' 1 4094).map Int.ofNat := by
  unfold pyRange
  rw [show ((4094 : Int) + 1 - 1).toNat = 4094 from by decide,
    List.range'_eq_map_range, List.map_map]
  refine List.map_congr_left ?_
  intro a _
  simp [Function.comp_apply, Int.ofNat_add, Int.ofNat_one]

lemma dedupSort_of_sorted {l : List Int} (h1 : List.Sorted (· ≤ ·) l)
    (h2 : l.Nodup) : dedupSort l = l := by
  unfold dedupSort
  rw [List.dedup_eq_self.mpr h2, List.Sorted.insertionSort_eq h1]

/-- C4: `_parse_vlan_list` always returns a strictly increasing (hence
duplicate-free) list; `"1-4094"` parses to the full list 1,…,4094;
`"10,20,30-32"` parses to `[10, 20, 30, 31, 32]`; and a fragment that is
neither a single integer nor a range (`"abc"`) is silently dropped. -/
theorem parse_vlan_list_spec :
    (∀ s : String, List.Sorted (· < ·) (parse_vlan_list s))
    ∧ (∀ s : String, (parse_vlan_list s).Nodup)
    ∧ parse_vlan_list "1-4094" = (List.range' 1 4094).map Int.ofNat
    ∧ parse_vlan_list "10,20,30-32" = [10, 20, 30, 31, 32]
    ∧ parse_vlan_list "10,abc,20" = [10, 20] := by
  have e1 : parse_vlan_list "10,20,30-32" = [10, 20, 30, 31, 32] := by decide
  have e2 : parse_vlan_list "10,abc,20" = [10, 20] := by decide
  refine ⟨fun s => dedupSort_sorted_lt _, fun s => dedupSort_nodup _, ?_, e1, e2⟩
  have h1 : splitOnChar ',' "1-4094".data = ["1-4094".data] := rfl
  have h2 : partVals "1-4094".data = pyRange 1 4094 := rfl
  have h0 : parse_vlan_list "1-4094" = dedupSort (pyRange 1 4094) := by
    simp only [parse_vlan_list, fragVals]
    rw [h1, List.flatMap_cons, List.flatMap_nil, List.append_nil, h2]
  have hnd : ((List.range' 1 4094).map Int.ofNat).Nodup :=
    (List.nodup_range' 1 4094).map Nat.cast_injective
  have hle : List.Sorted (· ≤ ·) ((List.range' 1 4094).map Int.ofNat) :=
    ((List.pairwise_lt_range' 1 4094).map _
      (fun a b h => by exact_mod_cast Nat.cast_lt.mpr h)).imp le_of_lt
  rw [h0, pyRange_1_4094, dedupSort_of_sorted hle hnd]

/-- Witness for C4's universal parts at a concrete input. -/
theorem parse_vlan_list_spec_witness :
    List.Sorted (· < ·) (parse_vlan_list "30-32,10") ∧
      (parse_vlan_list "30-32,10").Nodup :=
  ⟨parse_vlan_list_spec.1 "30-32,10", parse_vlan_list_spec.2.1 "30-32,10"⟩

/-! ## Lemmas about the engine -/

lemma step_cases {cfg : EngineCfg} {st st' : EngineState} (h : step cfg st = some st') :
    ∃ hn d rest, st.frontier = (hn, d) :: rest ∧
      ((st.discovered.contains hn = true ∧ st' = { st with frontier := rest })
      ∨ (st.discovered.contains hn = false ∧ cfg.maxDepth ≤ d ∧
          st' = { st with frontier := rest })
      ∨ (st.discovered.contains hn = false ∧ d < cfg.maxDepth ∧ cfg.net hn = none ∧
          st' = { st with frontier := rest, discovered := hn :: st.discovered })
      ∨ (∃ nbrs newItems,
          st.discovered.contains hn = false ∧ d < cfg.maxDepth ∧ cfg.net hn = some nbrs ∧
          newItems = (if d < cfg.maxDepth - 1 then
            (selectNeighbors (hn :: st.discovered) nbrs).map (fun nh => (nh, d + 1))
          else []) ∧
          st' = { frontier := rest ++ newItems, discovered := hn :: st.discovered,
                  collected := st.collected ++ [(hn, d)],
                  enqueued := st.enqueued ++ newItems })) := by
  match hf : st.frontier with
  | [] =>
    rw [step, hf] at h
    exact absurd h (by simp)
  | (hn, d) :: rest =>
    rw [step, hf] at h
    refine ⟨hn, d, rest, rfl, ?_⟩
    by_cases h1 : st.discovered.contains hn = true
    · simp only [h1, if_true] at h
      exact Or.inl ⟨h1, (Option.some.inj h).symm⟩
    · have h1' : st.discovered.contains hn = false := by
        simpa using h1
      simp only [h1', Bool.false_eq_true, if_false] at h
      by_cases h2 : cfg.maxDepth ≤ d
      · simp only [if_pos h2] at h
        exact Or.inr (Or.inl ⟨h1', h2, (Option.some.inj h).symm⟩)
      · simp only [if_neg h2] at h
        have h2' : d < cfg.maxDepth := Nat.lt_of_not_le h2
        match hnet : cfg.net hn with
        | none =>
          rw [hnet] at h
          exact Or.inr (Or.inr (Or.inl ⟨h1', h2', rfl, (Option.some.inj h).symm⟩))
        | some nbrs =>
          rw [hnet] at h
          exact Or.inr (Or.inr (Or.inr ⟨nbrs, _, h1', h2', rfl, rfl,
            (Option.some.inj h).symm⟩))

lemma run_preserve (cfg : EngineCfg) (P : EngineState → Prop)
    (hstep : ∀ st st', step cfg st = some st' → P st → P st') :
    ∀ fuel st, P st → P (run cfg fuel st) := by
  intro fuel
  induction fuel with
  | zero => intro st h; exact h
  | succ n ih =>
    intro st h
    rw [run]
    match hs : step cfg st with
    | none => exact h
    | some st' => exact ih st' (hstep st st' hs h)

lemma neighborHost?_eq_some {disc : List String} {n : Neighbor} {h : String}
    (he : neighborHost? disc n = some h) :
    n.remote_device = some h ∧ h ≠ "" ∧ disc.contains h = false ∧
      capFilter n.capabilities = true := by
  match hrd : n.remote_device with
  | none => simp [neighborHost?, hrd] at he
  | some h0 =>
    simp only [neighborHost?, hrd] at he
    by_cases e1 : h0 = ""
    · simp [e1] at he
    · by_cases e2 : h0 ∈ disc
      · simp [e1, e2] at he
      · by_cases e3 : capFilter n.capabilities = true
        · simp [e1, e2, e3] at he
          subst he
          exact ⟨rfl, e1, by simpa using e2, e3⟩
        · simp [e1, e2, e3] at he

lemma neighborHost?_pos {disc : List String} {n : Neighbor} {h : String}
    (h1 : n.remote_device = some h) (h2 : h ≠ "")
    (h3 : disc.contains h = false) (h4 : capFilter n.capabilities = true) :
    neighborHost? disc n = some h := by
  have h3' : h ∉ disc := by simpa using h3
  unfold neighborHost?
  rw [h1]
  simp [h2, h3', h4]

lemma mem_selectNeighbors {disc : List String} {nbrs : List Neighbor} {h : String} :
    h ∈ selectNeighbors disc nbrs ↔
      ∃ n ∈ nbrs, neighborHost? disc n = some h := by
  simp [selectNeighbors, List.mem_filterMap]

lemma depth_inv_step {cfg : EngineCfg} (st st' : EngineState)
    (h : step cfg st = some st')
    (hi : (∀ p ∈ st.frontier, p ∈ st.enqueued) ∧
      (∀ p ∈ st.enqueued, p.2 = 0 ∨ ∃ d, p.2 = d + 1 ∧ d < cfg.maxDepth - 1) ∧
      (∀ p ∈ st.collected, p.2 < cfg.maxDepth)) :
    (∀ p ∈ st'.frontier, p ∈ st'.enqueued) ∧
      (∀ p ∈ st'.enqueued, p.2 = 0 ∨ ∃ d, p.2 = d + 1 ∧ d < cfg.maxDepth - 1) ∧
      (∀ p ∈ st'.collected, p.2 < cfg.maxDepth) := by
  obtain ⟨h1, h2, h3⟩ := hi
  obtain ⟨hn, d, rest, hf, hcase⟩ := step_cases h
  have hrest : ∀ p ∈ rest, p ∈ st.enqueued := by
    intro p hp
    exact h1 p (hf ▸ List.mem_cons_of_mem _ hp)
  rcases hcase with ⟨hd, rfl⟩ | ⟨hd, hle, rfl⟩ | ⟨hd, hlt, hnet, rfl⟩ |
    ⟨nbrs, newItems, hd, hlt, hnet, hni, rfl⟩
  · exact ⟨hrest, h2, h3⟩
  · exact ⟨hrest, h2, h3⟩
  · exact ⟨hrest, h2, h3⟩
  · have hnew : ∀ p ∈ newItems, p.2 = d + 1 ∧ d < cfg.maxDepth - 1 := by
      intro p hp
      subst hni
      by_cases hdd : d < cfg.maxDepth - 1
      · simp only [if_pos hdd, List.mem_map] at hp
        obtain ⟨nh, _, rfl⟩ := hp
        exact ⟨rfl, hdd⟩
      · simp [if_neg hdd] at hp
    refine ⟨?_, ?_, ?_⟩
    · intro p hp
      rcases List.mem_append.mp hp with hp | hp
      · exact List.mem_append.mpr (Or.inl (hrest p hp))
      · exact List.mem_append.mpr (Or.inr hp)
    · intro p hp
      rcases List.mem_append.mp hp with hp | hp
      · exact h2 p hp
      · exact Or.inr ⟨d, (hnew p hp).1, (hnew p hp).2⟩
    · intro p hp
      rcases List.mem_append.mp hp with hp | hp
      · exact h3 p hp
      · simp only [List.mem_singleton] at hp
        subst hp
        exact hlt

lemma seed_inv_step {cfg : EngineCfg} (hN : cfg.maxDepth = 1)
    (st st' : EngineState) (h : step cfg st = some st')
    (hi : st.enqueued = cfg.seeds.map (fun h => (h, 0)) ∧
      (∀ p ∈ st.frontier, p ∈ cfg.seeds.map (fun h => (h, 0))) ∧
      (∀ x ∈ st.discovered, x ∈ cfg.seeds)) :
    st'.enqueued = cfg.seeds.map (fun h => (h, 0)) ∧
      (∀ p ∈ st'.frontier, p ∈ cfg.seeds.map (fun h => (h, 0))) ∧
      (∀ x ∈ st'.discovered, x ∈ cfg.seeds) := by
  obtain ⟨h1, h2, h3⟩ := hi
  obtain ⟨hn, d, rest, hf, hcase⟩ := step_cases h
  have hrest : ∀ p ∈ rest, p ∈ cfg.seeds.map (fun h => (h, 0)) := by
    intro p hp
    exact h2 p (hf ▸ List.mem_cons_of_mem _ hp)
  have hhn : hn ∈ cfg.seeds := by
    have := h2 (hn, d) (hf ▸ List.mem_cons_self _ _)
    simp only [List.mem_map] at this
    obtain ⟨x, hx, hxe⟩ := this
    obtain ⟨rfl, rfl⟩ := Prod.mk.injEq .. ▸ hxe
    exact hx
  rcases hcase with ⟨hd, rfl⟩ | ⟨hd, hle, rfl⟩ | ⟨hd, hlt, hnet, rfl⟩ |
    ⟨nbrs, newItems, hd, hlt, hnet, hni, rfl⟩
  · exact ⟨h1, hrest, h3⟩
  · exact ⟨h1, hrest, h3⟩
  · refine ⟨h1, hrest, ?_⟩
    intro x hx
    rcases List.mem_cons.mp hx with rfl | hx
    · exact hhn
    · exact h3 x hx
  · have hnil : newItems = [] := by
      subst hni
      have : ¬ d < cfg.maxDepth - 1 := by omega
      simp [this]
    subst hnil
    refine ⟨by simpa using h1, ?_, ?_⟩
    · intro p hp
      simp only [List.append_nil] at hp
      exact hrest p hp
    · intro x hx
      rcases List.mem_cons.mp hx with rfl | hx
      · exact hhn
      · exact h3 x hx

/-- C1: seeds enter the frontier at depth 0; a dequeued device is collected
only at depth `d < max_depth`; every queued item is a seed (depth 0) or a
neighbour queued at depth `d + 1` for some collected depth `d < max_depth - 1`;
hence (for `max_depth ≥ 1`) no item is ever enqueued at depth `≥ max_depth`;
and with `max_depth = 1` the queue only ever holds the seeds, so only seed
hostnames are visited. -/
theorem discovery_depth_limit (cfg : EngineCfg) (fuel : Nat) :
    ((initState cfg).frontier = cfg.seeds.map (fun h => (h, 0)))
    ∧ (∀ p ∈ (run cfg fuel (initState cfg)).collected, p.2 < cfg.maxDepth)
    ∧ (∀ p ∈ (run cfg fuel (initState cfg)).enqueued,
        p.2 = 0 ∨ ∃ d, p.2 = d + 1 ∧ d < cfg.maxDepth - 1)
    ∧ (1 ≤ cfg.maxDepth →
        ∀ p ∈ (run cfg fuel (initState cfg)).enqueued, p.2 < cfg.maxDepth)
    ∧ (cfg.maxDepth = 1 →
        (run cfg fuel (initState cfg)).enqueued = cfg.seeds.map (fun h => (h, 0))
        ∧ ∀ x ∈ (run cfg fuel (initState cfg)).discovered, x ∈ cfg.seeds) := by
  have hinit : ∀ p ∈ (initState cfg).enqueued,
      p.2 = 0 ∨ ∃ d, p.2 = d + 1 ∧ d < cfg.maxDepth - 1 := by
    intro p hp
    simp only [initState, List.mem_map] at hp
    obtain ⟨x, _, rfl⟩ := hp
    exact Or.inl rfl
  have main := run_preserve cfg
    (fun st => (∀ p ∈ st.frontier, p ∈ st.enqueued) ∧
      (∀ p ∈ st.enqueued, p.2 = 0 ∨ ∃ d, p.2 = d + 1 ∧ d < cfg.maxDepth - 1) ∧
      (∀ p ∈ st.collected, p.2 < cfg.maxDepth))
    (fun st st' hs hi => depth_inv_step st st' hs hi)
    fuel (initState cfg) ⟨fun p hp => hp, hinit, by simp [initState]⟩
  refine ⟨rfl, main.2.2, main.2.1, ?_, ?_⟩
  · intro hN p hp
    rcases main.2.1 p hp with h0 | ⟨d, hd, hlt⟩
    · omega
    · omega
  · intro hN
    have seed := run_preserve cfg
      (fun st => st.enqueued = cfg.seeds.map (fun h => (h, 0)) ∧
        (∀ p ∈ st.frontier, p ∈ cfg.seeds.map (fun h => (h, 0))) ∧
        (∀ x ∈ st.discovered, x ∈ cfg.seeds))
      (fun st st' hs hi => seed_inv_step hN st st' hs hi)
      fuel (initState cfg) ⟨rfl, fun p hp => hp, by simp [initState]⟩
    exact ⟨seed.1, seed.2.2⟩

/-- C1 witness configuration: two seeds that both report the same fresh
neighbour `X` (a switch), crawled with `max_depth = 2`. -/
def nbOf (h : String) (caps : List String) : Neighbor :=
  { remote_device := some h, remote_ip := none, capabilities := caps }

def netTwoSeeds : String → Option (List Neighbor) :=
  fun h => if h = "A" || h = "B" then some [nbOf "X" ["Switch"]] else none

def cfgTwoSeeds : EngineCfg :=
  { seeds := ["A", "B"], maxDepth := 2, net := netTwoSeeds }

def cfgOneDepth : EngineCfg :=
  { seeds := ["A"], maxDepth := 1,
    net := fun h => if h = "A" then some [nbOf "X" ["Switch"]] else none }

/-- Witness for C1 at two concrete crawls: with `max_depth = 2` every
collected and every enqueued depth stays below 2, and with `max_depth = 1`
nothing beyond the seeds is ever enqueued and only seeds are visited. -/
theorem discovery_depth_limit_witness :
    (∀ p ∈ (run cfgTwoSeeds 6 (initState cfgTwoSeeds)).collected,
      p.2 < cfgTwoSeeds.maxDepth)
    ∧ (∀ p ∈ (run cfgTwoSeeds 6 (initState cfgTwoSeeds)).enqueued,
      p.2 < cfgTwoSeeds.maxDepth)
    ∧ (run cfgOneDepth 6 (initState cfgOneDepth)).enqueued
        = cfgOneDepth.seeds.map (fun h => (h, 0))
    ∧ (∀ x ∈ (run cfgOneDepth 6 (initState cfgOneDepth)).discovered,
      x ∈ cfgOneDepth.seeds) :=
  ⟨(discovery_depth_limit cfgTwoSeeds 6).2.1,
   (discovery_depth_limit cfgTwoSeeds 6).2.2.2.1 (by decide),
   ((discovery_depth_limit cfgOneDepth 6).2.2.2.2 (by decide)).1,
   ((discovery_depth_limit cfgOneDepth 6).2.2.2.2 (by decide)).2⟩

/-- C2 counterexample: `discovered_devices` is only extended at dequeue
time, so when seeds `A` and `B` each report the fresh neighbour `X` before
`X` is dequeued, `X` is put on the frontier twice; and after the first
step `X` is enqueued yet not in the visited set. -/
theorem enqueue_once_counterexample :
    (run cfgTwoSeeds 6 (initState cfgTwoSeeds)).enqueued.count ("X", 1) = 2
    ∧ ¬ ((run cfgTwoSeeds 6 (initState cfgTwoSeeds)).enqueued.count ("X", 1) ≤ 1)
    ∧ ("X", 1) ∈ (run cfgTwoSeeds 1 (initState cfgTwoSeeds)).enqueued
    ∧ "X" ∉ (run cfgTwoSeeds 1 (initState cfgTwoSeeds)).discovered := by
  decide

lemma once_inv_step {cfg : EngineCfg} (st st' : EngineState)
    (h : step cfg st = some st')
    (hi : st.discovered.Nodup ∧
      (∀ x ∈ st.collected.map Prod.fst, x ∈ st.discovered) ∧
      (st.collected.map Prod.fst).Nodup) :
    st'.discovered.Nodup ∧
      (∀ x ∈ st'.collected.map Prod.fst, x ∈ st'.discovered) ∧
      (st'.collected.map Prod.fst).Nodup := by
  obtain ⟨h1, h2, h3⟩ := hi
  obtain ⟨hn, d, rest, hf, hcase⟩ := step_cases h
  rcases hcase with ⟨hd, rfl⟩ | ⟨hd, hle, rfl⟩ | ⟨hd, hlt, hnet, rfl⟩ |
    ⟨nbrs, newItems, hd, hlt, hnet, hni, rfl⟩
  · exact ⟨h1, h2, h3⟩
  · exact ⟨h1, h2, h3⟩
  · have hnm : hn ∉ st.discovered := by simpa using hd
    exact ⟨List.nodup_cons.mpr ⟨hnm, h1⟩,
      fun x hx => List.mem_cons_of_mem _ (h2 x hx), h3⟩
  · have hnm : hn ∉ st.discovered := by simpa using hd
    refine ⟨List.nodup_cons.mpr ⟨hnm, h1⟩, ?_, ?_⟩
    · intro x hx
      simp only [List.map_append, List.map_cons, List.map_nil,
        List.mem_append, List.mem_singleton] at hx
      rcases hx with hx | rfl
      · exact List.mem_cons_of_mem _ (h2 x hx)
      · exact List.mem_cons_self _ _
    · have hdisj : (st.collected.map Prod.fst).Disjoint [hn] := by
        intro x hx hx'
        simp only [List.mem_singleton] at hx'
        subst hx'
        exact hnm (h2 x hx)
      simp only [List.map_append, List.map_cons, List.map_nil]
      exact h3.append (List.nodup_singleton hn) hdisj

/-- C2 (amended): membership in `discovered_devices` is checked at enqueue
time but only set at dequeue time, so a hostname can sit on the frontier
more than once; what does hold is that the visited set never acquires
duplicates and each hostname is collected at most once per crawl. -/
theorem discovered_once (cfg : EngineCfg) (fuel : Nat) :
    (run cfg fuel (initState cfg)).discovered.Nodup
    ∧ ((run cfg fuel (initState cfg)).collected.map Prod.fst).Nodup
    ∧ (∀ x ∈ (run cfg fuel (initState cfg)).collected.map Prod.fst,
        x ∈ (run cfg fuel (initState cfg)).discovered) := by
  have main := run_preserve cfg
    (fun st => st.discovered.Nodup ∧
      (∀ x ∈ st.collected.map Prod.fst, x ∈ st.discovered) ∧
      (st.collected.map Prod.fst).Nodup)
    (fun st st' hs hi => once_inv_step st st' hs hi)
    fuel (initState cfg) ⟨by simp [initState], by simp [initState], by simp [initState]⟩
  exact ⟨main.1, main.2.2, main.2.1⟩

/-- Witness for C2's amended statement on a concrete crawl (the same one
that exhibits the double enqueue): visited and collected hostname lists
are duplicate-free. -/
theorem discovered_once_witness :
    (run cfgTwoSeeds 6 (initState cfgTwoSeeds)).discovered.Nodup
    ∧ ((run cfgTwoSeeds 6 (initState cfgTwoSeeds)).collected.map Prod.fst).Nodup :=
  ⟨(discovered_once cfgTwoSeeds 6).1, (discovered_once cfgTwoSeeds 6).2.1⟩

/-- C5 counterexample configuration: one seed whose single neighbour
reports the capability `"SWITCH"` (upper case). -/
def cfgUpperCaps : EngineCfg :=
  { seeds := ["A"], maxDepth := 2,
    net := fun h => if h = "A" then some [nbOf "X" ["SWITCH"]] else none }

/-- C5 counterexample: the capability comparison is an exact string match
against `["Switch", "Router", "switch", "router"]`, not case-insensitive:
a neighbour advertising `"SWITCH"` fails the filter and is never
enqueued, although the claim says any letter casing passes. -/
theorem capability_filter_counterexample :
    capFilter ["SWITCH"] = false
    ∧ capFilter ["ROUTER"] = false
    ∧ ("X", 1) ∉ (run cfgUpperCaps 6 (initState cfgUpperCaps)).enqueued := by
  decide

lemma prov_inv_step {cfg : EngineCfg} (st st' : EngineState)
    (h : step cfg st = some st')
    (hi : ∀ p ∈ st.enqueued, p.2 = 0 ∨ ∃ src nbrs n, cfg.net src = some nbrs ∧
      n ∈ nbrs ∧ Neighbor.remote_device n = some p.1 ∧ capFilter n.capabilities = true) :
    ∀ p ∈ st'.enqueued, p.2 = 0 ∨ ∃ src nbrs n, cfg.net src = some nbrs ∧
      n ∈ nbrs ∧ Neighbor.remote_device n = some p.1 ∧ capFilter n.capabilities = true := by
  obtain ⟨hn, d, rest, hf, hcase⟩ := step_cases h
  rcases hcase with ⟨hd, rfl⟩ | ⟨hd, hle, rfl⟩ | ⟨hd, hlt, hnet, rfl⟩ |
    ⟨nbrs, newItems, hd, hlt, hnet, hni, rfl⟩
  · exact hi
  · exact hi
  · exact hi
  · intro p hp
    rcases List.mem_append.mp hp with hp | hp
    · exact hi p hp
    · subst hni
      by_cases hdd : d < cfg.maxDepth - 1
      · simp only [if_pos hdd, List.mem_map] at hp
        obtain ⟨nh, hnh, rfl⟩ := hp
        obtain ⟨n, hmem, he⟩ := mem_selectNeighbors.mp hnh
        obtain ⟨hrd, _, _, hcap⟩ := neighborHost?_eq_some he
        exact Or.inr ⟨hn, nbrs, n, hnet, hmem, hrd, hcap⟩
      · simp [if_neg hdd] at hp

/-- C5 (amended): the engine's capability filter passes exactly the
neighbours whose capability list contains one of the four exact strings
`Switch`, `Router`, `switch`, `router` (so `SWITCH`/`ROUTER` do not
pass); a fresh, named neighbour passing the filter is queued by
`_process_discovered_device`; and every non-seed frontier entry of a
crawl originates from some collected device's neighbour that passed the
filter. -/
theorem capability_filter_spec :
    (∀ caps : List String, capFilter caps = true ↔
      ∃ c ∈ caps, c = "Switch" ∨ c = "Router" ∨ c = "switch" ∨ c = "router")
    ∧ (∀ (disc : List String) (nbrs : List Neighbor) (n : Neighbor) (h : String),
        n ∈ nbrs → n.remote_device = some h → h ≠ "" → disc.contains h = false →
        capFilter n.capabilities = true → h ∈ selectNeighbors disc nbrs)
    ∧ (∀ (cfg : EngineCfg) (fuel : Nat),
        ∀ p ∈ (run cfg fuel (initState cfg)).enqueued, p.2 = 0 ∨
          ∃ src nbrs n, cfg.net src = some nbrs ∧ n ∈ nbrs ∧
            Neighbor.remote_device n = some p.1 ∧ capFilter n.capabilities = true) := by
  refine ⟨?_, ?_, ?_⟩
  · intro caps
    simp [capFilter, List.any_eq_true]
  · intro disc nbrs n h hmem hrd hne hdisc hcap
    exact mem_selectNeighbors.mpr ⟨n, hmem, neighborHost?_pos hrd hne hdisc hcap⟩
  · intro cfg fuel
    refine run_preserve cfg
      (fun st => ∀ p ∈ st.enqueued, p.2 = 0 ∨ ∃ src nbrs n,
        cfg.net src = some nbrs ∧ n ∈ nbrs ∧
        Neighbor.remote_device n = some p.1 ∧ capFilter n.capabilities = true)
      (fun st st' hs hi => prov_inv_step st st' hs hi)
      fuel (initState cfg) ?_
    intro p hp
    simp only [initState, List.mem_map] at hp
    obtain ⟨x, _, rfl⟩ := hp
    exact Or.inl rfl

/-- Witness for C5's amended statement at concrete inputs: `["Switch"]`
passes the filter, a fresh neighbour named `X` with that capability is
selected for the queue, and in a concrete crawl every enqueued item is a
seed or stems from a switch/router neighbour. -/
theorem capability_filter_spec_witness :
    capFilter ["Switch"] = true
    ∧ "X" ∈ selectNeighbors ["A"] [nbOf "X" ["Switch"]]
    ∧ (∀ p ∈ (run cfgTwoSeeds 6 (initState cfgTwoSeeds)).enqueued, p.2 = 0 ∨
        ∃ src nbrs n, cfgTwoSeeds.net src = some nbrs ∧ n ∈ nbrs ∧
          Neighbor.remote_device n = some p.1 ∧ capFilter n.capabilities = true) :=
  ⟨(capability_filter_spec.1 ["Switch"]).mpr ⟨"Switch", by decide, Or.inl rfl⟩,
   capability_filter_spec.2.1 ["A"] [nbOf "X" ["Switch"]] (nbOf "X" ["Switch"]) "X"
     (by decide) (by decide) (by decide) (by decide) (by decide),
   capability_filter_spec.2.2 cfgTwoSeeds 6⟩

/-! ## Lemmas about `parse_vlans` and line-leading integers -/

/-- Leading integers of all lines after the first. -/
def tailVals (cs : List Char) : List Nat :=
  ((splitOnChar '\n' cs).tail).filterMap lineLeadVal

lemma splitOnChar_ne_nil (sep : Char) : ∀ cs, splitOnChar sep cs ≠ []
  | [] => by simp [splitOnChar]
  | c :: cs => by
    by_cases hc : c = sep
    · simp [splitOnChar, hc]
    · have := splitOnChar_ne_nil sep cs
      match hs : splitOnChar sep cs with
      | [] => exact absurd hs this
      | l :: ls => simp [splitOnChar, hc, hs]

lemma splitOnChar_cons_sep (sep : Char) (cs : List Char) :
    splitOnChar sep (sep :: cs) = [] :: splitOnChar sep cs := by
  simp [splitOnChar]

lemma splitOnChar_cons_ne (sep c : Char) (cs : List Char) (hc : c ≠ sep) :
    ∃ l ls, splitOnChar sep cs = l :: ls ∧
      splitOnChar sep (c :: cs) = (c :: l) :: ls := by
  match hs : splitOnChar sep cs with
  | [] => exact absurd hs (splitOnChar_ne_nil sep cs)
  | l :: ls => exact ⟨l, ls, rfl, by simp [splitOnChar, hc, hs]⟩

lemma lineLeadVals_cons_nl (cs : List Char) :
    lineLeadVals ('\n' :: cs) = lineLeadVals cs := by
  simp [lineLeadVals, splitOnChar_cons_sep, lineLeadVal]

lemma skipLine_cons_nl (cs : List Char) : skipLine ('\n' :: cs) = cs := by
  simp [skipLine, List.dropWhile]

lemma skipLine_cons_ne (c : Char) (cs : List Char) (hc : c ≠ '\n') :
    skipLine (c :: cs) = skipLine cs := by
  simp [skipLine, List.dropWhile, hc]

lemma tailVals_cons_ne (c : Char) (cs : List Char) (hc : c ≠ '\n') :
    tailVals (c :: cs) = tailVals cs := by
  obtain ⟨l, ls, h1, h2⟩ := splitOnChar_cons_ne '\n' c cs hc
  simp [tailVals, h1, h2]

lemma tailVals_subset_lineLeadVals (cs : List Char) :
    ∀ v ∈ tailVals cs, v ∈ lineLeadVals cs := by
  intro v hv
  match hs : splitOnChar '\n' cs with
  | [] => exact absurd hs (splitOnChar_ne_nil '\n' cs)
  | l :: ls =>
    simp only [tailVals, hs, List.tail_cons] at hv
    simp only [lineLeadVals, hs, List.filterMap_cons]
    match lineLeadVal l with
    | none => exact hv
    | some w => exact List.mem_cons_of_mem _ hv

lemma skipLine_vals_tailVals : ∀ cs : List Char,
    ∀ v ∈ lineLeadVals (skipLine cs), v ∈ tailVals cs
  | [] => by
    intro v hv
    simp [skipLine, lineLeadVals, splitOnChar, lineLeadVal] at hv
  | c :: cs => by
    intro v hv
    by_cases hc : c = '\n'
    · subst hc
      rw [skipLine_cons_nl] at hv
      simp only [tailVals, splitOnChar_cons_sep, List.tail_cons]
      exact hv
    · rw [skipLine_cons_ne c cs hc] at hv
      rw [tailVals_cons_ne c cs hc]
      exact skipLine_vals_tailVals cs v hv

lemma tailVals_append : ∀ (pre u : List Char),
    ∀ v ∈ tailVals u, v ∈ tailVals (pre ++ u)
  | [], u => by intro v hv; exact hv
  | c :: pre, u => by
    intro v hv
    have ih := tailVals_append pre u v hv
    by_cases hc : c = '\n'
    · subst hc
      simp only [List.cons_append, tailVals, splitOnChar_cons_sep, List.tail_cons]
      exact tailVals_subset_lineLeadVals _ v ih
    · rw [List.cons_append, tailVals_cons_ne c _ hc]
      exact ih

/-- Every leading integer of a complete (post-newline) line of a suffix is
a leading line integer of the whole input. -/
lemma skipLine_suffix_vals (pre u : List Char) :
    ∀ v ∈ lineLeadVals (skipLine u), v ∈ lineLeadVals (pre ++ u) := by
  intro v hv
  exact tailVals_subset_lineLeadVals _ v
    (tailVals_append pre u v (skipLine_vals_tailVals u v hv))

lemma takeWhile_takeWhile_of_imp {p q : Char → Bool}
    (hpq : ∀ c, p c = true → q c = true) :
    ∀ cs : List Char, (cs.takeWhile q).takeWhile p = cs.takeWhile p
  | [] => rfl
  | c :: cs => by
    by_cases hp : p c = true
    · have hq := hpq c hp
      simp only [List.takeWhile_cons, hq, hp, if_true]
      rw [takeWhile_takeWhile_of_imp hpq cs]
    · by_cases hq : q c = true
      · simp [List.takeWhile_cons, hq, hp]
      · simp [List.takeWhile_cons, hq, hp]

lemma digit_ne_nl (c : Char) (h : c.isDigit = true) : (c ≠ '\n') = True := by
  by_cases hc : c = '\n'
  · subst hc
    exact absurd h (by decide)
  · simp [hc]

lemma splitOnChar_head (sep : Char) : ∀ cs : List Char, ∃ ls,
    splitOnChar sep cs = (cs.takeWhile (fun c => c ≠ sep)) :: ls
  | [] => ⟨[], by simp [splitOnChar]⟩
  | c :: cs => by
    by_cases hc : c = sep
    · subst hc
      exact ⟨splitOnChar c cs, by simp [splitOnChar_cons_sep, List.takeWhile_cons]⟩
    · obtain ⟨ls0, hls0⟩ := splitOnChar_head sep cs
      obtain ⟨l, ls, h1, h2⟩ := splitOnChar_cons_ne sep c cs hc
      rw [h1] at hls0
      obtain ⟨hl, _⟩ := List.cons.inj hls0
      subst hl
      refine ⟨ls, ?_⟩
      rw [h2]
      simp [List.takeWhile_cons, hc]

/-- The value of a non-empty leading digit run is among the input's
line-leading integers. -/
lemma digitsVal_head_mem (cs : List Char)
    (hne : cs.takeWhile Char.isDigit ≠ []) :
    digitsVal (cs.takeWhile Char.isDigit) ∈ lineLeadVals cs := by
  obtain ⟨ls, hsplit⟩ := splitOnChar_head '\n' cs
  have htt : ((cs.takeWhile (fun c => c ≠ '\n')).takeWhile Char.isDigit)
      = cs.takeWhile Char.isDigit :=
    takeWhile_takeWhile_of_imp
      (fun c h => by
        have := digit_ne_nl c h
        simp only [ne_eq, decide_eq_true_eq]
        simp only [ne_eq, eq_iff_iff] at this
        exact this.mpr trivial) cs
  have hval : lineLeadVal (cs.takeWhile (fun c => c ≠ '\n'))
      = some (digitsVal (cs.takeWhile Char.isDigit)) := by
    simp only [lineLeadVal, htt]
    simp [List.isEmpty_iff, hne]
  simp only [lineLeadVals, hsplit, List.filterMap_cons, hval]
  exact List.mem_cons_self _ _

lemma ciConsume_suffix : ∀ (pat cs r : List Char),
    ciConsume pat cs = some r → ∃ pre, cs = pre ++ r
  | [], cs, r => by
    intro h
    simp only [ciConsume, Option.some.injEq] at h
    exact ⟨[], by rw [h]; rfl⟩
  | p :: ps, [], r => by
    intro h
    simp [ciConsume] at h
  | p :: ps, c :: cs, r => by
    intro h
    simp only [ciConsume] at h
    by_cases hc : c.toLower = p
    · rw [if_pos hc] at h
      obtain ⟨pre, hpre⟩ := ciConsume_suffix ps cs r h
      exact ⟨c :: pre, by rw [List.cons_append, hpre]⟩
    · rw [if_neg hc] at h
      exact absurd h (by simp)

lemma matchStatus_some {cs st r} (h : matchStatus cs = some (st, r)) :
    ∃ pat, ciConsume pat cs = some r := by
  unfold matchStatus at h
  match h1 : ciConsume "active".data cs with
  | some r0 =>
    rw [h1] at h
    simp only [Option.some.injEq, Prod.mk.injEq] at h
    exact ⟨_, h.2 ▸ h1⟩
  | none =>
    rw [h1] at h
    match h2 : ciConsume "suspended".data cs with
    | some r0 =>
      rw [h2] at h
      simp only [Option.some.injEq, Prod.mk.injEq] at h
      exact ⟨_, h.2 ▸ h2⟩
    | none =>
      rw [h2] at h
      match h3 : ciConsume "act/lshut".data cs with
      | some r0 =>
        rw [h3] at h
        simp only [Option.some.injEq, Prod.mk.injEq] at h
        exact ⟨_, h.2 ▸ h3⟩
      | none =>
        rw [h3] at h
        match h4 : ciConsume "sus/lshut".data cs with
        | some r0 =>
          rw [h4] at h
          simp only [Option.some.injEq, Prod.mk.injEq] at h
          exact ⟨_, h.2 ▸ h4⟩
        | none =>
          rw [h4] at h
          exact absurd h (by simp)

lemma suffix_trans {x y z : List Char} (h1 : ∃ p, x = p ++ y)
    (h2 : ∃ q, y = q ++ z) : ∃ pq, x = pq ++ z := by
  obtain ⟨p, hp⟩ := h1
  obtain ⟨q, hq⟩ := h2
  exact ⟨p ++ q, by rw [hp, hq, List.append_assoc]⟩

lemma takeWhile_drop_suffix (p : Char → Bool) (cs : List Char) :
    ∃ pre, cs = pre ++ cs.dropWhile p :=
  ⟨cs.takeWhile p, (List.takeWhile_append_dropWhile p cs).symm⟩

lemma matchVlanLine_some {cs : List Char} {e : VlanRec} {r : List Char}
    (h : matchVlanLine cs = some (e, r)) :
    e.vlan_id = digitsVal (cs.takeWhile Char.isDigit) ∧
      cs.takeWhile Char.isDigit ≠ [] ∧ ∃ pre, cs = pre ++ r := by
  simp only [matchVlanLine] at h
  split_ifs at h with e1 e2 e3 e4
  match hms : matchStatus ((((cs.dropWhile Char.isDigit).dropWhile
      isSpacePy).dropWhile (fun c => !(isSpacePy c))).dropWhile isSpacePy) with
  | none => rw [hms] at h; exact absurd h (by simp)
  | some (st, r5) =>
    rw [hms] at h
    simp only [Option.some.injEq, Prod.mk.injEq] at h
    obtain ⟨he, hr⟩ := h
    refine ⟨by rw [← he], by simpa [List.isEmpty_iff] using e1, ?_⟩
    refine suffix_trans (takeWhile_drop_suffix Char.isDigit cs) ?_
    refine suffix_trans (takeWhile_drop_suffix isSpacePy _) ?_
    refine suffix_trans (takeWhile_drop_suffix (fun c => !(isSpacePy c)) _) ?_
    refine suffix_trans (takeWhile_drop_suffix isSpacePy _) ?_
    obtain ⟨pat, hci⟩ := matchStatus_some (hr ▸ hms)
    exact ciConsume_suffix pat _ _ hci

lemma pvScanAux_vals : ∀ (fuel : Nat) (cs : List Char) (b : Bool),
    ∀ e ∈ pvScanAux fuel cs b,
      e.vlan_id ∈ (if b then lineLeadVals cs else lineLeadVals (skipLine cs)) := by
  intro fuel
  induction fuel with
  | zero =>
    intro cs b e he
    simp [pvScanAux] at he
  | succ n ih =>
    intro cs b e he
    match cs with
    | [] => simp [pvScanAux] at he
    | c :: rest =>
      by_cases hbt : b = true
      · subst hbt
        simp only [pvScanAux, if_true] at he
        match hm : matchVlanLine (c :: rest) with
        | some (e', r5) =>
          rw [hm] at he
          simp only [if_true]
          rcases List.mem_cons.mp he with rfl | he'
          · obtain ⟨hid, hne, _⟩ := matchVlanLine_some hm
            rw [hid]
            exact digitsVal_head_mem _ hne
          · have hin := ih r5 false e he'
            simp only [if_neg (by simp : ¬ (false = true))] at hin
            obtain ⟨_, _, pre, hpre⟩ := matchVlanLine_some hm
            rw [hpre]
            exact skipLine_suffix_vals pre r5 _ hin
        | none =>
          rw [hm] at he
          have hin := ih rest (decide (c = '\n')) e he
          simp only [if_true]
          by_cases hc : c = '\n'
          · subst hc
            simp only [decide_eq_true_eq, if_pos] at hin
            rw [lineLeadVals_cons_nl]
            simpa using hin
          · simp [hc] at hin
            rw [← skipLine_cons_ne c rest hc] at hin
            simpa using skipLine_suffix_vals [] (c :: rest) _ hin
      · have hbf : b = false := by simpa using hbt
        subst hbf
        simp only [pvScanAux, if_neg (by simp : ¬ (false = true))] at he
        have hin := ih rest (decide (c = '\n')) e he
        simp only [if_neg (by simp : ¬ (false = true))]
        by_cases hc : c = '\n'
        · subst hc
          simp only [decide_eq_true_eq, if_pos] at hin
          rw [skipLine_cons_nl]
          simpa using hin
        · simp [hc] at hin
          rw [skipLine_cons_ne c rest hc]
          exact hin

/-- C6 counterexample: the parsing layer performs no 1..4094 range check.
`_parse_vlan_list` returns 4095 verbatim, and `parse_vlans` happily
returns records with `vlan_id` 4095 or 0. -/
theorem vlan_id_range_counterexample :
    (4095 : Int) ∈ parse_vlan_list "4095"
    ∧ ¬ ((4095 : Int) ≤ 4094)
    ∧ (∃ e ∈ parse_vlans "4095 foo active", e.vlan_id = 4095)
    ∧ (∃ e ∈ parse_vlans "0 bar active", e.vlan_id = 0) := by
  decide

/-- C6 (amended): the parsers take VLAN ids verbatim from the input and
apply no 1..4094 range restriction; the range invariant holds exactly
when the input's listed values satisfy it.  If every integer listed by a
trunk string's fragments lies in 1..4094, so does every id returned by
`_parse_vlan_list` (and hence every trunk-allowed list built by
`parse_interfaces_trunk`); if every line-leading integer of a
`show vlan brief` output lies in 1..4094, so does the `vlan_id` of every
record returned by `parse_vlans`. -/
theorem vlan_id_range_conditional :
    (∀ s : String, (∀ v ∈ fragVals s.data, 1 ≤ v ∧ v ≤ 4094) →
      ∀ v ∈ parse_vlan_list s, 1 ≤ v ∧ v ≤ 4094)
    ∧ (∀ s : String, (∀ v ∈ lineLeadVals s.data, 1 ≤ v ∧ v ≤ 4094) →
      ∀ e ∈ parse_vlans s, 1 ≤ e.vlan_id ∧ e.vlan_id ≤ 4094) := by
  constructor
  · intro s hin v hv
    exact hin v (mem_dedupSort.mp hv)
  · intro s hin e he
    have hv := pvScanAux_vals s.data.length s.data true e he
    simp only [if_true] at hv
    exact hin e.vlan_id hv

/-- Witness for C6's amended statement at concrete inputs whose listed
values are in range. -/
theorem vlan_id_range_conditional_witness :
    (∀ v ∈ parse_vlan_list "10,20-22", 1 ≤ v ∧ v ≤ 4094)
    ∧ (∀ e ∈ parse_vlans "10 a active\n20 b suspended", 1 ≤ e.vlan_id ∧ e.vlan_id ≤ 4094) :=
  ⟨vlan_id_range_conditional.1 "10,20-22" (by decide),
   vlan_id_range_conditional.2 "10 a active\n20 b suspended" (by decide)⟩

end NetDiscovery
